import Mathlib

/-!
Verification of the FEC codec core of the bitcoinsatellite repository.

The development shallowly embeds the code of `src/fec.h` (the
`BlockChunkRecvdTracker` is given there inline) together with models,
derived from the specification, of the parts of the repository whose
bodies are declared in `src/fec.h` / exercised by `src/bench/fec.cpp`
and `src/test/ringbuffer_tests.cpp` but whose implementation files
(`fec.cpp`, `open_hash_set.h`, `ringbuffer.h`, the wirehair/cm256
libraries) are not part of the given sources.  Machine integers are
embedded as `Nat`; chunk payloads are byte lists.
-/

/-- `FEC_CHUNK_SIZE` from fec.h: every wire chunk is exactly 1152 bytes. -/
def FEC_CHUNK_SIZE : ℕ := 1152

/-- `CM256_MAX_CHUNKS` from fec.h: largest data-chunk count using the small
(cm256) code. -/
def CM256_MAX_CHUNKS : ℕ := 27

/-- `FEC_CHUNK_COUNT_MAX` from fec.h: `1 << 24`, the size of the chunk-id
space. -/
def FEC_CHUNK_COUNT_MAX : ℕ := 2 ^ 24

/-- Modelled from the spec: `MAX_OBJECT_SIZE` (the bound
`MAX_BLOCK_SERIALIZED_SIZE * MAX_CHUNK_CODED_BLOCK_SIZE_FACTOR` named in
fec.h) is not defined in the given sources; it is modelled as the largest
object whose data chunks all receive ids inside the id space. -/
def MAX_OBJECT_SIZE : ℕ := FEC_CHUNK_SIZE * FEC_CHUNK_COUNT_MAX

/-- `DIV_CEIL` from bench/fec.cpp: ceiling division. -/
def DIV_CEIL (a b : ℕ) : ℕ := (a + b - 1) / b

/-- A chunk payload: a list of bytes (each a `Nat`). -/
abbrev Chunk := List ℕ

/-- The all-zero chunk of full chunk size. -/
def zeroChunk : Chunk := List.replicate FEC_CHUNK_SIZE 0

/-- Bytewise XOR of two chunks (truncating to the shorter). -/
def chunkXor (a b : Chunk) : Chunk := List.zipWith Nat.xor a b

/-- The number of data chunks of an object of `L` bytes
(`D = DIV_CEIL(size, FEC_CHUNK_SIZE)` as in fec.cpp / bench/fec.cpp). -/
def dataChunkCount (L : ℕ) : ℕ := DIV_CEIL L FEC_CHUNK_SIZE

/-- The source object zero-padded to a whole number of chunks
(the spec: the last data chunk is zero-padded). -/
def padData (data : List ℕ) : List ℕ :=
  data ++ List.replicate (dataChunkCount data.length * FEC_CHUNK_SIZE - data.length) 0

/-- The `j`-th systematic source chunk of an object. -/
def sourceChunk (data : List ℕ) (j : ℕ) : Chunk :=
  ((padData data).drop (j * FEC_CHUNK_SIZE)).take FEC_CHUNK_SIZE

/-- XOR of the source chunks with the given indices. -/
def xorOf (data : List ℕ) (vs : List ℕ) : Chunk :=
  vs.foldr (fun v acc => chunkXor (sourceChunk data v) acc) zeroChunk

/-- Modelled from the spec: the encoder emission for a chunk id.  The bodies
of the wirehair/cm256 engines and `FECEncoder` (fec.cpp) are not in the given
sources; per spec 4.2/4.3 an id below `D` is the systematic source chunk
verbatim, and a redundancy id carries a deterministic combination of a
subset of source chunks selected by a scheme identical at encoder and
decoder.  The subset selection is the parameter `coef` (the wire contract)
and the combination is the bytewise XOR of spec 4.3. -/
def EncodeChunk (data : List ℕ) (coef : ℕ → ℕ → Bool) (id : ℕ) : Chunk :=
  let D := dataChunkCount data.length
  if id < D then sourceChunk data id
  else xorOf data ((List.range D).filter (fun j => coef id j))

/-! ## The received-chunk tracker (`BlockChunkRecvdTracker`, fec.h 28-66)

The bit-vector logic of `CheckPresentAndMarkRecvd` / `CheckPresent` is given
inline in fec.h; the `open_hash_set` it stores redundancy ids in is not among
the given sources and is modelled from the spec. -/

/-- Reading `data_chunk_recvd_flags[i]` (`std::vector<bool>` indexing;
out-of-range reads never occur in the code and default to `false` here). -/
def flagAt : List Bool → ℕ → Bool
  | [], _ => false
  | b :: _, 0 => b
  | _ :: rest, i + 1 => flagAt rest i

/-- Modelled from the spec: `open_hash_set::find_fast` (open_hash_set.h is not
in the given sources).  Spec 4.4: probe for the id, reporting whether it is
stored. -/
def hashSetFindFast (s : List ℕ) (id : ℕ) : Bool := decide (id ∈ s)

/-- Modelled from the spec: `open_hash_set::insert` (open_hash_set.h is not in
the given sources).  Returns the new set and whether an insertion took place;
spec 4.4: if the id is found nothing is inserted, otherwise it is stored (the
table grows by doubling, so inserting a fresh id always succeeds). -/
def hashSetInsert (s : List ℕ) (id : ℕ) : List ℕ × Bool :=
  if id ∈ s then (s, false) else (id :: s, true)

/-- `BlockChunkRecvdTracker` (fec.h 28-66): a bit-vector for the systematic
ids and a hash set for the redundancy ids. -/
structure BlockChunkRecvdTracker where
  data_chunk_recvd_flags : List Bool
  fec_chunks_recvd : List ℕ
deriving DecidableEq

/-- `BlockChunkRecvdTracker(size_t data_chunks)`: the bit-vector has one flag
per data chunk, all clear; the hash set starts empty. -/
def trackerInit (data_chunks : ℕ) : BlockChunkRecvdTracker :=
  ⟨List.replicate data_chunks false, []⟩

/-- `BlockChunkRecvdTracker::CheckPresentAndMarkRecvd` (fec.h 47-60). -/
def CheckPresentAndMarkRecvd (t : BlockChunkRecvdTracker) (chunk_id : ℕ) :
    Bool × BlockChunkRecvdTracker :=
  if chunk_id < t.data_chunk_recvd_flags.length then
    if flagAt t.data_chunk_recvd_flags chunk_id then (true, t)
    else (false, { t with data_chunk_recvd_flags := t.data_chunk_recvd_flags.set chunk_id true })
  else
    if hashSetFindFast t.fec_chunks_recvd chunk_id then (true, t)
    else
      let r := hashSetInsert t.fec_chunks_recvd chunk_id
      if !r.2 then (true, { t with fec_chunks_recvd := r.1 })
      else (false, { t with fec_chunks_recvd := r.1 })

/-- `BlockChunkRecvdTracker::CheckPresent` (fec.h 62-65), a `const` method. -/
def CheckPresent (t : BlockChunkRecvdTracker) (chunk_id : ℕ) : Bool :=
  if chunk_id < t.data_chunk_recvd_flags.length then
    flagAt t.data_chunk_recvd_flags chunk_id
  else hashSetFindFast t.fec_chunks_recvd chunk_id

/-- A call on the tracker: `CheckPresentAndMarkRecvd` or the `const` query
`CheckPresent`. -/
inductive TrackerOp where
  | mark : ℕ → TrackerOp
  | query : ℕ → TrackerOp

/-- One tracker call: the returned `Bool` and the tracker afterwards (the
`const` query leaves the tracker untouched). -/
def trackerStep (t : BlockChunkRecvdTracker) : TrackerOp → Bool × BlockChunkRecvdTracker
  | TrackerOp.mark id => CheckPresentAndMarkRecvd t id
  | TrackerOp.query id => (CheckPresent t id, t)

/-- Run a sequence of tracker calls. -/
def runTrackerOps (t : BlockChunkRecvdTracker) (ops : List TrackerOp) :
    BlockChunkRecvdTracker :=
  ops.foldl (fun s op => (trackerStep s op).2) t

/-- The ids of the `CheckPresentAndMarkRecvd` calls of a call sequence. -/
def markedIds (ops : List TrackerOp) : List ℕ :=
  ops.filterMap (fun op => match op with
    | TrackerOp.mark id => some id
    | TrackerOp.query _ => none)

/-- Run a sequence of `CheckPresentAndMarkRecvd` calls. -/
def runMarks (t : BlockChunkRecvdTracker) (ids : List ℕ) : BlockChunkRecvdTracker :=
  runTrackerOps t (ids.map TrackerOp.mark)

/-- A pending equation of the decoder's linear system: the payload `rhs`
equals the XOR of the source chunks with indices `vars`. -/
structure FecEqn where
  rhs : Chunk
  vars : List ℕ
deriving DecidableEq

/-- Look a recovered chunk up among the already-known ones. -/
def lookupKnown (known : List (ℕ × Chunk)) (k : ℕ) : Option Chunk :=
  (known.find? (fun pr => pr.1 == k)).map (fun pr => pr.2)

/-- Substitute every already-known chunk into an equation. -/
def reduceEqn (known : List (ℕ × Chunk)) : List ℕ → Chunk → FecEqn
  | [], rhs => ⟨rhs, []⟩
  | v :: vs, rhs =>
    match lookupKnown known v with
    | some val => reduceEqn known vs (chunkXor val rhs)
    | none =>
      let e := reduceEqn known vs rhs
      ⟨e.rhs, v :: e.vars⟩

/-- One peeling pass: reduce each equation by the known chunks; a fully
determined equation is dropped, an equation with one unknown left recovers
that chunk, the rest stay pending. -/
def peelPass (known : List (ℕ × Chunk)) : List FecEqn → List (ℕ × Chunk) × List FecEqn
  | [] => (known, [])
  | e :: rest =>
    let e' := reduceEqn known e.vars e.rhs
    match e'.vars with
    | [] => peelPass known rest
    | [j] => peelPass ((j, e'.rhs) :: known) rest
    | _ => ((peelPass known rest).1, e' :: (peelPass known rest).2)

/-- Iterate peeling passes (the fuel bounds the number of passes; each
productive pass recovers at least one chunk). -/
def solveLoop : ℕ → List (ℕ × Chunk) → List FecEqn → List (ℕ × Chunk)
  | 0, known, _ => known
  | fuel + 1, known, eqs => solveLoop fuel (peelPass known eqs).1 (peelPass known eqs).2

/-- All entries of a known-chunk table really are source chunks. -/
def KnownOK (data : List ℕ) (known : List (ℕ × Chunk)) : Prop :=
  ∀ pr ∈ known, pr.2 = sourceChunk data pr.1

/-- All pending equations hold of the source and mention only source
indices. -/
def EqnsOK (data : List ℕ) (eqs : List FecEqn) : Prop :=
  ∀ e ∈ eqs, e.rhs = xorOf data e.vars ∧ ∀ v ∈ e.vars, v < dataChunkCount data.length

/-! ## The decoder (`FECDecoder`, fec.h 128-196)

The fields mirror fec.h (`chunk_count`, `chunks_recvd`, `obj_size`,
`decodeComplete`, `chunk_tracker`); the stored receptions and the
combination subsets stand for the wirehair/cm256 decoder state whose
implementation is not among the given sources. -/

structure FECDecoder where
  chunk_count : ℕ
  chunks_recvd : ℕ
  obj_size : ℕ
  decodeComplete : Bool
  chunk_tracker : BlockChunkRecvdTracker
  received : List (ℕ × Chunk)
  coefs : ℕ → ℕ → Bool

/-- Modelled from the spec: the `FECDecoder(size_t data_size, ...)`
constructor (fec.cpp is not in the given sources).  Spec 3/4.7: derives the
chunk count from the object size; the tracker covers the data chunks. -/
def FECDecoder.init (data_size : ℕ) (coef : ℕ → ℕ → Bool) : FECDecoder :=
  { chunk_count := dataChunkCount data_size
    chunks_recvd := 0
    obj_size := data_size
    decodeComplete := false
    chunk_tracker := trackerInit (dataChunkCount data_size)
    received := []
    coefs := coef }

/-- Modelled from the spec: the known chunks the solve starts from — the
systematic receptions (spec 4.2/4.3: an id below D carries the source chunk
verbatim). -/
def initKnown (D : ℕ) (received : List (ℕ × Chunk)) : List (ℕ × Chunk) :=
  received.filterMap (fun pr => if pr.1 < D then some pr else none)

/-- Modelled from the spec: the pending equations the solve starts from —
each redundancy reception says its payload equals the combination of the
source chunks its id selects (spec 4.3). -/
def initEqns (D : ℕ) (coef : ℕ → ℕ → Bool) (received : List (ℕ × Chunk)) :
    List FecEqn :=
  received.filterMap (fun pr =>
    if pr.1 < D then none
    else some ⟨pr.2, (List.range D).filter (fun j => coef pr.1 j)⟩)

/-- Modelled from the spec: the decoder's solve over everything received so
far (the peeling stage of the spec 4.7 pipeline). -/
def decoderSolve (st : FECDecoder) : List (ℕ × Chunk) :=
  solveLoop (st.chunk_count + 1) (initKnown st.chunk_count st.received)
    (initEqns st.chunk_count st.coefs st.received)

/-- Modelled from the spec: whether the solve recovered every data chunk
(spec 4.7: the decoder is ready when the accumulated system is solved). -/
def decodeSolved (st : FECDecoder) : Bool :=
  (List.range st.chunk_count).all (fun j => (lookupKnown (decoderSolve st) j).isSome)

/-- Modelled from the spec: `FECDecoder::ProvideChunk` (fec.cpp is not in the
given sources).  Spec 4.7/7: hard-invalid input (id outside the id space, id
at least 256 in small mode, wrong payload size) returns false with the state
unchanged; otherwise the tracker deduplicates (a duplicate is an accepted
no-op) and a fresh chunk is stored and counted.  The tracker call is the
fec.h `CheckPresentAndMarkRecvd` above. -/
def ProvideChunk (st : FECDecoder) (chunk : Chunk) (chunk_id : ℕ) :
    Bool × FECDecoder :=
  if FEC_CHUNK_COUNT_MAX ≤ chunk_id then (false, st)
  else if st.chunk_count ≤ CM256_MAX_CHUNKS ∧ 256 ≤ chunk_id then (false, st)
  else if chunk.length ≠ FEC_CHUNK_SIZE then (false, st)
  else
    let r := CheckPresentAndMarkRecvd st.chunk_tracker chunk_id
    if r.1 then (true, { st with chunk_tracker := r.2 })
    else
      (true, { st with
        chunk_tracker := r.2
        received := (chunk_id, chunk) :: st.received
        chunks_recvd := st.chunks_recvd + 1 })

/-- Modelled from the spec: `FECDecoder::DecodeReady` (fec.cpp is not in the
given sources).  Spec 4.7: lazy; the first call after enough chunks arrive
performs the solve and memoizes into the `mutable bool decodeComplete` of
fec.h 133; once true it stays true. -/
def DecodeReady (st : FECDecoder) : Bool × FECDecoder :=
  if st.decodeComplete then (true, st)
  else if decodeSolved st then (true, { st with decodeComplete := true })
  else (false, st)

/-- Modelled from the spec: `FECDecoder::HasChunk` (fec.cpp is not in the
given sources).  Spec 4.7: a tracker query. -/
def HasChunk (st : FECDecoder) (chunk_id : ℕ) : Bool :=
  CheckPresent st.chunk_tracker chunk_id

/-- `FECDecoder::GetChunkCount` (inline in fec.h 192). -/
def GetChunkCount (st : FECDecoder) : ℕ := st.chunk_count

/-- `FECDecoder::GetChunksRcvd` (inline in fec.h 193). -/
def GetChunksRcvd (st : FECDecoder) : ℕ := st.chunks_recvd

/-- Modelled from the spec: `FECDecoder::GetDecodedData` (fec.cpp is not in
the given sources).  Spec 4.7: the recovered data chunks concatenated and
truncated to the object size. -/
def GetDecodedData (st : FECDecoder) : List ℕ :=
  (((List.range st.chunk_count).map
      (fun j => (lookupKnown (decoderSolve st) j).getD zeroChunk)).flatten).take
    st.obj_size

/-- Feed a sequence of `(payload, chunk_id)` pairs through `ProvideChunk`. -/
def provideAll (st : FECDecoder) (inputs : List (Chunk × ℕ)) : FECDecoder :=
  inputs.foldl (fun s pr => (ProvideChunk s pr.1 pr.2).2) st

/-- A chunk sequence suffices for an object size when feeding it to a fresh
decoder makes `DecodeReady` report true. -/
def Sufficient (data_size : ℕ) (coef : ℕ → ℕ → Bool) (inputs : List (Chunk × ℕ)) :
    Prop :=
  (DecodeReady (provideAll (FECDecoder.init data_size coef) inputs)).1 = true

/-- A call on the decoder's public interface. -/
inductive DecOp where
  | provide : Chunk → ℕ → DecOp
  | ready : DecOp
  | hasChunk : ℕ → DecOp

/-- One decoder call (the decoder afterwards; `HasChunk` and the getters are
`const` and read-only, `DecodeReady` may memoize its result). -/
def decOpStep (st : FECDecoder) : DecOp → FECDecoder
  | DecOp.provide chunk id => (ProvideChunk st chunk id).2
  | DecOp.ready => (DecodeReady st).2
  | DecOp.hasChunk _ => st

/-- Run a sequence of decoder calls. -/
def runDecOps (st : FECDecoder) (ops : List DecOp) : FECDecoder :=
  ops.foldl decOpStep st

/-- The result of the `n`-th call in a sequence of `CheckPresentAndMarkRecvd`
calls with the given ids, on a tracker built for `D` data chunks. -/
def nthMarkResult (D : ℕ) (ids : List ℕ) (n : ℕ) : Bool :=
  (CheckPresentAndMarkRecvd (runMarks (trackerInit D) (ids.take n)) (ids.getD n 0)).1

/-! ## The encoder (`FECEncoder`, fec.h 69-99)

`FECEncoder` borrows the source buffer and an output table of chunks and
ids whose ids start at 0 (0 meaning "unfilled"); `BuildChunk` is declared in
fec.h and exercised by bench/fec.cpp but its body (fec.cpp) is not among the
given sources and is modelled from spec 4.6. -/

structure FECEncoder where
  data : List ℕ
  chunks : List Chunk
  ids : List ℕ
  rand : List ℕ

/-- The data-chunk count of the encoder's source object. -/
def encDataChunks (e : FECEncoder) : ℕ := dataChunkCount e.data.length

/-- The systematic ids not yet present in the output id table. -/
def unusedSystematic (e : FECEncoder) : List ℕ :=
  (List.range (encDataChunks e)).filter (fun j => decide (j ∉ e.ids))

/-- Modelled from the spec: the id `BuildChunk` picks next (spec 4.6:
systematic ids in [0, D) until exhausted, then redundancy ids in
[D, CHUNK_COUNT_MAX); the randomness is the injected `rand` stream). -/
def chooseId (e : FECEncoder) : ℕ :=
  match unusedSystematic e with
  | j :: _ => j
  | [] => encDataChunks e + e.rand.headD 0 % (FEC_CHUNK_COUNT_MAX - encDataChunks e)

/-- Modelled from the spec: `FECEncoder::BuildChunk` (fec.cpp is not in the
given sources).  Spec 4.6: returns false without touching the slot when
`ids[i] != 0` and overwrite is not set; otherwise picks a chunk id, fills
`chunks[i]` with its encoding and records the id in `ids[i]`. -/
def BuildChunk (coef : ℕ → ℕ → Bool) (e : FECEncoder) (vector_idx : ℕ)
    (overwrite : Bool) : Bool × FECEncoder :=
  if e.ids.getD vector_idx 0 ≠ 0 ∧ overwrite = false then (false, e)
  else
    (true, { e with
      chunks := e.chunks.set vector_idx (EncodeChunk e.data coef (chooseId e))
      ids := e.ids.set vector_idx (chooseId e)
      rand := e.rand.tail })

/-! ## The ring buffer (`RingBuffer<T>`, spec 4.8)

ringbuffer.h is not among the given sources (only its tests,
src/test/ringbuffer_tests.cpp); the single-producer/single-consumer queue
with transactional reads and writes is modelled from spec 4.8.  The consumer
actions a blocked writer can observe are made explicit as a list of
events. -/

/-- Modelled from the spec: `RingBufferStats` (read statistics; the EWMA
rates are out of scope of the claims and not modelled). -/
structure RingBufferStats where
  rd_bytes : ℕ
  rd_count : ℕ
deriving DecidableEq

/-- Modelled from the spec: `BUFF_DEPTH`, the compile-time queue depth,
default 64 (spec 4.8). -/
def BUFF_DEPTH : ℕ := 64

/-- Modelled from the spec: `RingBuffer<T>` — the committed elements in FIFO
order, whether a read transaction is open, and the statistics. -/
structure RingBuffer (T : Type) where
  elems : List T
  reading : Bool
  stats : RingBufferStats

/-- Modelled from the spec: the `IsEmpty` snapshot query (namespaced: the
bare name is taken by the library). -/
def RingBuffer.IsEmpty {T : Type} (b : RingBuffer T) : Bool := b.elems.isEmpty

/-- Modelled from the spec: the `IsFull` snapshot query. -/
def IsFull {T : Type} (b : RingBuffer T) : Bool := decide (BUFF_DEPTH ≤ b.elems.length)

/-- Modelled from the spec: `GetNextRead` returns the element at the read
pointer and opens a read transaction; the read pointer does not advance. -/
def GetNextRead {T : Type} (b : RingBuffer T) : Option T × RingBuffer T :=
  (b.elems.head?, { b with reading := true })

/-- Modelled from the spec: `ConfirmRead` advances the read pointer and
updates the statistics. -/
def ConfirmRead {T : Type} (b : RingBuffer T) (bytes : ℕ) : RingBuffer T :=
  { elems := b.elems.tail
    reading := false
    stats := ⟨b.stats.rd_bytes + bytes, b.stats.rd_count + 1⟩ }

/-- Modelled from the spec: `AbortRead` closes the transaction and leaves
the read pointer where it was. -/
def AbortRead {T : Type} (b : RingBuffer T) : RingBuffer T :=
  { b with reading := false }

/-- What the consumer thread does while a writer is blocked on a full
buffer: confirm a read (freeing a slot) or call `AbortWrite`. -/
inductive WrEvent where
  | readFree : WrEvent
  | abortWr : WrEvent

/-- Modelled from the spec: `WriteElement` appends when there is room;
blocked on a full buffer it waits for consumer events — `AbortWrite` makes
it return false without writing, a confirmed read frees a slot and lets it
commit.  `none` stands for still blocked. -/
def WriteElement {T : Type} (x : T) : RingBuffer T → List WrEvent → Option (Bool × RingBuffer T)
  | b, evs =>
    if b.elems.length < BUFF_DEPTH then some (true, { b with elems := b.elems ++ [x] })
    else
      match evs with
      | [] => none
      | WrEvent.abortWr :: _ => some (false, b)
      | WrEvent.readFree :: rest => WriteElement x (ConfirmRead b 0) rest

/-- A concrete two-byte object for the round-trip witness. -/
def dataW : List ℕ := [5, 7]

/-- A concrete combination-subset choice for the round-trip witness. -/
def coefW : ℕ → ℕ → Bool := fun _ _ => true

/-- The round-trip witness feed: the single systematic chunk of `dataW`. -/
def inputsW : List (Chunk × ℕ) := [(EncodeChunk dataW coefW 0, 0)]

theorem length_chunkXor (a b : Chunk) :
    (chunkXor a b).length = min a.length b.length := by
  simp [chunkXor]

theorem chunkXor_assoc (a b c : Chunk) :
    chunkXor (chunkXor a b) c = chunkXor a (chunkXor b c) := by
  induction a generalizing b c with
  | nil => simp [chunkXor]
  | cons x xs ih =>
    cases b with
    | nil => simp [chunkXor]
    | cons y ys =>
      cases c with
      | nil => simp [chunkXor]
      | cons z zs =>
        simp only [chunkXor, List.zipWith, List.cons.injEq] at *
        exact ⟨Nat.xor_assoc x y z, ih ys zs⟩

theorem chunkXor_comm (a b : Chunk) : chunkXor a b = chunkXor b a := by
  induction a generalizing b with
  | nil => cases b <;> simp [chunkXor]
  | cons x xs ih =>
    cases b with
    | nil => simp [chunkXor]
    | cons y ys =>
      simp only [chunkXor, List.zipWith, List.cons.injEq] at *
      exact ⟨Nat.xor_comm x y, ih ys⟩

theorem chunkXor_left_comm (a b c : Chunk) :
    chunkXor a (chunkXor b c) = chunkXor b (chunkXor a c) := by
  rw [← chunkXor_assoc, chunkXor_comm a b, chunkXor_assoc]

theorem chunkXor_zero_left (a : Chunk) (n : ℕ) (h : a.length = n) :
    chunkXor (List.replicate n 0) a = a := by
  induction a generalizing n with
  | nil => simp [chunkXor]
  | cons x xs ih =>
    cases n with
    | zero => simp at h
    | succ m =>
      simp only [List.replicate, chunkXor, List.zipWith, List.cons.injEq]
      rw [List.length_cons] at h
      exact ⟨Nat.zero_xor x, ih m (Nat.succ_injective h)⟩

theorem chunkXor_self (a : Chunk) : chunkXor a a = List.replicate a.length 0 := by
  induction a with
  | nil => simp [chunkXor]
  | cons x xs ih =>
    simp only [chunkXor, List.zipWith, List.length_cons, List.replicate,
      List.cons.injEq] at *
    exact ⟨Nat.xor_self x, ih⟩

theorem chunkXor_cancel (a b : Chunk) (h : a.length = b.length) :
    chunkXor a (chunkXor a b) = b := by
  rw [← chunkXor_assoc, chunkXor_self, h, chunkXor_zero_left b b.length rfl]

theorem le_dataChunkCount_mul (L : ℕ) : L ≤ dataChunkCount L * FEC_CHUNK_SIZE := by
  unfold dataChunkCount DIV_CEIL FEC_CHUNK_SIZE
  rcases Nat.eq_zero_or_pos L with h | h
  · simp [h]
  · have h1 : L + 1152 - 1 = (L - 1) + 1152 := by omega
    rw [h1, Nat.add_div_right _ (by norm_num)]
    have h2 := Nat.div_add_mod (L - 1) 1152
    have h3 : (L - 1) % 1152 < 1152 := Nat.mod_lt _ (by norm_num)
    omega

theorem length_padData (data : List ℕ) :
    (padData data).length = dataChunkCount data.length * FEC_CHUNK_SIZE := by
  have := le_dataChunkCount_mul data.length
  simp [padData]
  omega

theorem length_sourceChunk (data : List ℕ) (j : ℕ)
    (h : j < dataChunkCount data.length) :
    (sourceChunk data j).length = FEC_CHUNK_SIZE := by
  simp only [sourceChunk, List.length_take, List.length_drop, length_padData]
  have h2 : j * FEC_CHUNK_SIZE + FEC_CHUNK_SIZE ≤ dataChunkCount data.length * FEC_CHUNK_SIZE := by
    have h3 : (j + 1) * FEC_CHUNK_SIZE ≤ dataChunkCount data.length * FEC_CHUNK_SIZE :=
      Nat.mul_le_mul_right _ h
    rwa [Nat.succ_mul] at h3
  omega

theorem length_xorOf (data : List ℕ) (vs : List ℕ)
    (hv : ∀ v ∈ vs, v < dataChunkCount data.length) :
    (xorOf data vs).length = FEC_CHUNK_SIZE := by
  induction vs with
  | nil => simp [xorOf, zeroChunk]
  | cons v vs ih =>
    simp only [xorOf, List.foldr_cons] at *
    rw [length_chunkXor, length_sourceChunk data v (hv v (List.mem_cons_self v vs)),
      ih (fun w hw => hv w (List.mem_cons_of_mem v hw))]
    simp

theorem length_EncodeChunk (data : List ℕ) (coef : ℕ → ℕ → Bool) (id : ℕ) :
    (EncodeChunk data coef id).length = FEC_CHUNK_SIZE := by
  unfold EncodeChunk
  by_cases hid : id < dataChunkCount data.length
  · simp only [hid, if_true]
    exact length_sourceChunk data id hid
  · simp only [hid, if_false]
    exact length_xorOf data _ (by intro v hv; exact (List.mem_filter.mp hv).1 |> List.mem_range.mp)

theorem join_take_chunks (C : ℕ) :
    ∀ (D : ℕ) (w : List ℕ), w.length = D * C →
    ((List.range D).map (fun j => (w.drop (j * C)).take C)).flatten = w := by
  intro D
  induction D with
  | zero =>
    intro w hw
    rw [Nat.zero_mul] at hw
    rw [List.eq_nil_of_length_eq_zero hw]
    simp
  | succ D ih =>
    intro w hw
    rw [List.range_succ_eq_map, List.map_cons, List.map_map, List.flatten_cons]
    have hfun : ((fun j => (w.drop (j * C)).take C) ∘ Nat.succ) =
        (fun j => (((w.drop C).drop (j * C)).take C)) := by
      funext j
      simp only [Function.comp, List.drop_drop, Nat.succ_mul, Nat.add_comm]
    rw [hfun, ih (w.drop C) (by rw [List.length_drop, hw, Nat.succ_mul]; omega)]
    rw [Nat.zero_mul, List.drop_zero, List.take_append_drop]

theorem join_sourceChunks (data : List ℕ) :
    ((List.range (dataChunkCount data.length)).map (sourceChunk data)).flatten
      = padData data := by
  have h := join_take_chunks FEC_CHUNK_SIZE (dataChunkCount data.length)
    (padData data) (length_padData data)
  rw [← h]
  rfl

theorem take_padData (data : List ℕ) : (padData data).take data.length = data :=
  List.take_left data _

theorem flagAt_replicate_false (n i : ℕ) : flagAt (List.replicate n false) i = false := by
  induction n generalizing i with
  | zero => rfl
  | succ m ih =>
    rw [List.replicate]
    cases i with
    | zero => rfl
    | succ j => exact ih j

theorem flagAt_set_self (l : List Bool) (i : ℕ) (h : i < l.length) :
    flagAt (l.set i true) i = true := by
  induction l generalizing i with
  | nil => simp at h
  | cons b rest ih =>
    cases i with
    | zero => rfl
    | succ j => exact ih j (by simpa using h)

theorem flagAt_set_other (l : List Bool) (i j : ℕ) (hne : j ≠ i) :
    flagAt (l.set i true) j = flagAt l j := by
  induction l generalizing i j with
  | nil => cases i <;> rfl
  | cons b rest ih =>
    cases i with
    | zero =>
      cases j with
      | zero => exact absurd rfl hne
      | succ k => rfl
    | succ i' =>
      cases j with
      | zero => rfl
      | succ k => exact ih i' k (fun he => hne (congrArg Nat.succ he))

theorem checkMark_eq_flags (t : BlockChunkRecvdTracker) (id : ℕ)
    (h1 : id < t.data_chunk_recvd_flags.length) :
    CheckPresentAndMarkRecvd t id =
      if flagAt t.data_chunk_recvd_flags id then (true, t)
      else (false, { t with data_chunk_recvd_flags := t.data_chunk_recvd_flags.set id true }) := by
  unfold CheckPresentAndMarkRecvd
  rw [if_pos h1]

theorem checkMark_eq_hash (t : BlockChunkRecvdTracker) (id : ℕ)
    (h1 : ¬ id < t.data_chunk_recvd_flags.length) :
    CheckPresentAndMarkRecvd t id =
      if id ∈ t.fec_chunks_recvd then (true, t)
      else (false, { t with fec_chunks_recvd := id :: t.fec_chunks_recvd }) := by
  unfold CheckPresentAndMarkRecvd
  rw [if_neg h1]
  by_cases h3 : id ∈ t.fec_chunks_recvd
  · simp [hashSetFindFast, h3]
  · simp [hashSetFindFast, hashSetInsert, h3]

theorem checkMark_fst (t : BlockChunkRecvdTracker) (id : ℕ) :
    (CheckPresentAndMarkRecvd t id).1 = CheckPresent t id := by
  unfold CheckPresent
  by_cases h1 : id < t.data_chunk_recvd_flags.length
  · rw [checkMark_eq_flags t id h1, if_pos h1]
    by_cases h2 : flagAt t.data_chunk_recvd_flags id
    · rw [if_pos h2, h2]
    · rw [Bool.not_eq_true] at h2
      rw [if_neg (by simp [h2]), h2]
  · rw [checkMark_eq_hash t id h1, if_neg h1]
    by_cases h3 : id ∈ t.fec_chunks_recvd
    · rw [if_pos h3]
      simp [hashSetFindFast, h3]
    · rw [if_neg h3]
      simp [hashSetFindFast, h3]

theorem checkMark_flags_length (t : BlockChunkRecvdTracker) (id : ℕ) :
    (CheckPresentAndMarkRecvd t id).2.data_chunk_recvd_flags.length
      = t.data_chunk_recvd_flags.length := by
  by_cases h1 : id < t.data_chunk_recvd_flags.length
  · rw [checkMark_eq_flags t id h1]
    by_cases h2 : flagAt t.data_chunk_recvd_flags id
    · rw [if_pos h2]
    · rw [if_neg h2]
      exact List.length_set ..
  · rw [checkMark_eq_hash t id h1]
    by_cases h3 : id ∈ t.fec_chunks_recvd
    · rw [if_pos h3]
    · rw [if_neg h3]

theorem checkPresent_after_mark (t : BlockChunkRecvdTracker) (id x : ℕ) :
    CheckPresent (CheckPresentAndMarkRecvd t id).2 x
      = (CheckPresent t x || decide (x = id)) := by
  unfold CheckPresent
  by_cases h1 : id < t.data_chunk_recvd_flags.length
  · rw [checkMark_eq_flags t id h1]
    by_cases h2 : flagAt t.data_chunk_recvd_flags id
    · rw [if_pos h2]
      by_cases hx : x < t.data_chunk_recvd_flags.length
      · by_cases hxi : x = id
        · subst hxi
          simp [hx, h2]
        · simp [hx, hxi]
      · have hne : ¬ x = id := fun he => hx (he ▸ h1)
        simp [hx, hne]
    · rw [if_neg h2]
      by_cases hx : x < t.data_chunk_recvd_flags.length
      · simp only [List.length_set, hx, if_true]
        by_cases hxi : x = id
        · subst hxi
          rw [flagAt_set_self _ _ h1]
          simp
        · rw [flagAt_set_other _ _ _ hxi]
          simp [hxi]
      · simp only [List.length_set, hx, if_false]
        have hne : ¬ x = id := fun he => hx (he ▸ h1)
        simp [hne]
  · rw [checkMark_eq_hash t id h1]
    by_cases h3 : id ∈ t.fec_chunks_recvd
    · rw [if_pos h3]
      by_cases hx : x < t.data_chunk_recvd_flags.length
      · have hne : ¬ x = id := fun he => h1 (he ▸ hx)
        simp [hx, hne]
      · by_cases hxi : x = id
        · subst hxi
          simp [hx, hashSetFindFast, h3]
        · simp [hx, hxi]
    · rw [if_neg h3]
      by_cases hx : x < t.data_chunk_recvd_flags.length
      · have hne : ¬ x = id := fun he => h1 (he ▸ hx)
        simp [hx, hne]
      · by_cases hxi : x = id
        · subst hxi
          simp [hx, hashSetFindFast]
        · simp [hx, hxi, hashSetFindFast, List.mem_cons]

theorem markedIds_map_mark (ids : List ℕ) : markedIds (ids.map TrackerOp.mark) = ids := by
  unfold markedIds
  rw [List.filterMap_map]
  exact List.filterMap_some ids

theorem checkPresent_runTrackerOps (ops : List TrackerOp) :
    ∀ (t : BlockChunkRecvdTracker) (x : ℕ),
    CheckPresent (runTrackerOps t ops) x
      = (CheckPresent t x || decide (x ∈ markedIds ops)) := by
  induction ops with
  | nil => intro t x; simp [runTrackerOps, markedIds]
  | cons op ops ih =>
    intro t x
    cases op with
    | mark id =>
      have h1 : runTrackerOps t (TrackerOp.mark id :: ops)
          = runTrackerOps (CheckPresentAndMarkRecvd t id).2 ops := rfl
      rw [h1, ih, checkPresent_after_mark]
      have h2 : markedIds (TrackerOp.mark id :: ops) = id :: markedIds ops := rfl
      rw [h2]
      simp only [List.mem_cons]
      by_cases hxi : x = id <;> by_cases hm : x ∈ markedIds ops <;>
        simp [hxi, hm]
    | query id =>
      have h1 : runTrackerOps t (TrackerOp.query id :: ops) = runTrackerOps t ops := rfl
      have h2 : markedIds (TrackerOp.query id :: ops) = markedIds ops := rfl
      rw [h1, h2, ih]

theorem checkPresent_init (D x : ℕ) : CheckPresent (trackerInit D) x = false := by
  unfold CheckPresent trackerInit
  by_cases h : x < (List.replicate D false).length
  · simp only [h, if_true]
    exact flagAt_replicate_false D x
  · rw [if_neg h]
    simp [hashSetFindFast]

theorem checkPresent_run_init (D : ℕ) (ops : List TrackerOp) (x : ℕ) :
    CheckPresent (runTrackerOps (trackerInit D) ops) x = decide (x ∈ markedIds ops) := by
  rw [checkPresent_runTrackerOps, checkPresent_init]
  simp

theorem getD_mem (l : List ℕ) (m : ℕ) (h : m < l.length) : l.getD m 0 ∈ l := by
  induction l generalizing m with
  | nil => simp at h
  | cons a l ih =>
    cases m with
    | zero => exact List.mem_cons_self a l
    | succ k =>
      have : l.getD k 0 ∈ l := ih k (by simpa using h)
      exact List.mem_cons_of_mem a this

theorem getD_take (l : List ℕ) (n m : ℕ) (h : m < n) :
    (l.take n).getD m 0 = l.getD m 0 := by
  show ((l.take n).get? m).getD 0 = (l.get? m).getD 0
  rw [List.get?_take h]

theorem exists_first_occ (l : List ℕ) (x : ℕ) (h : x ∈ l) :
    ∃ m, m < l.length ∧ l.getD m 0 = x ∧ x ∉ l.take m := by
  induction l with
  | nil => simp at h
  | cons a l ih =>
    by_cases hxa : x = a
    · subst hxa
      exact ⟨0, by simp, rfl, by simp⟩
    · have hx : x ∈ l := by
        rcases List.mem_cons.mp h with h' | h'
        · exact absurd h' hxa
        · exact h'
      obtain ⟨m, hm, hget, hnot⟩ := ih hx
      refine ⟨m + 1, by simpa using hm, hget, ?_⟩
      rw [List.take_succ_cons]
      simp only [List.mem_cons]
      rintro (h' | h')
      · exact hxa h'
      · exact hnot h'

/-! ## The decoder solve (modelled from spec 4.2/4.3/4.7)

The wirehair/cm256 decode pipelines (fec.cpp and the bundled libraries) are
not among the given sources.  The solve is modelled from the spec as the
peeling stage over the received linear system: systematic receptions are
known source chunks, each redundancy reception is an equation
`rhs = XOR of the source chunks it combines`, and equations with a single
remaining unknown recover that chunk. -/

theorem chunkXor_zero_right (a : Chunk) (n : ℕ) (h : a.length = n) :
    chunkXor a (List.replicate n 0) = a := by
  rw [chunkXor_comm]
  exact chunkXor_zero_left a n h

theorem xorOf_cons (data : List ℕ) (v : ℕ) (vs : List ℕ) :
    xorOf data (v :: vs) = chunkXor (sourceChunk data v) (xorOf data vs) := rfl

theorem xorOf_single (data : List ℕ) (j : ℕ) (h : j < dataChunkCount data.length) :
    xorOf data [j] = sourceChunk data j := by
  rw [xorOf_cons]
  show chunkXor (sourceChunk data j) zeroChunk = sourceChunk data j
  exact chunkXor_zero_right _ _ (length_sourceChunk data j h)

theorem lookupKnown_correct (data : List ℕ) (known : List (ℕ × Chunk)) (k : ℕ)
    (v : Chunk) (hK : KnownOK data known) (h : lookupKnown known k = some v) :
    v = sourceChunk data k := by
  unfold lookupKnown at h
  cases hf : known.find? (fun pr => pr.1 == k) with
  | none => rw [hf] at h; simp at h
  | some pr =>
    rw [hf] at h
    simp only [Option.map] at h
    rw [Option.some.injEq] at h
    have hmem := List.mem_of_find?_eq_some hf
    have hbeq := List.find?_some hf
    have hk : pr.1 = k := by simpa using hbeq
    rw [← h, hK pr hmem, hk]

theorem reduceEqn_found (known : List (ℕ × Chunk)) (v : ℕ) (vs : List ℕ)
    (rhs val : Chunk) (h : lookupKnown known v = some val) :
    reduceEqn known (v :: vs) rhs = reduceEqn known vs (chunkXor val rhs) := by
  simp [reduceEqn, h]

theorem reduceEqn_not_found (known : List (ℕ × Chunk)) (v : ℕ) (vs : List ℕ)
    (rhs : Chunk) (h : lookupKnown known v = none) :
    reduceEqn known (v :: vs) rhs
      = ⟨(reduceEqn known vs rhs).rhs, v :: (reduceEqn known vs rhs).vars⟩ := by
  simp [reduceEqn, h]

theorem reduceEqn_sound (data : List ℕ) (known : List (ℕ × Chunk))
    (hK : KnownOK data known) :
    ∀ (vs : List ℕ) (rhs extra : Chunk),
    (∀ v ∈ vs, v < dataChunkCount data.length) →
    extra.length = FEC_CHUNK_SIZE →
    rhs = chunkXor extra (xorOf data vs) →
    (reduceEqn known vs rhs).rhs
        = chunkXor extra (xorOf data (reduceEqn known vs rhs).vars)
      ∧ ∀ v ∈ (reduceEqn known vs rhs).vars, v < dataChunkCount data.length := by
  intro vs
  induction vs with
  | nil =>
    intro rhs extra hv hlen hrhs
    exact ⟨hrhs, by intro v hv2; exact absurd hv2 (List.not_mem_nil v)⟩
  | cons v vs ih =>
    intro rhs extra hv hlen hrhs
    have hvD : v < dataChunkCount data.length := hv v (List.mem_cons_self v vs)
    have hvsD : ∀ w ∈ vs, w < dataChunkCount data.length :=
      fun w hw => hv w (List.mem_cons_of_mem v hw)
    have hsv : (sourceChunk data v).length = FEC_CHUNK_SIZE := length_sourceChunk data v hvD
    have hX : (xorOf data vs).length = FEC_CHUNK_SIZE := length_xorOf data vs hvsD
    rw [xorOf_cons] at hrhs
    cases hl : lookupKnown known v with
    | some val =>
      have hval : val = sourceChunk data v := lookupKnown_correct data known v val hK hl
      have hred : reduceEqn known (v :: vs) rhs = reduceEqn known vs (chunkXor val rhs) :=
        reduceEqn_found known v vs rhs val hl
      rw [hred]
      apply ih (chunkXor val rhs) extra hvsD hlen
      rw [hval, hrhs, chunkXor_left_comm]
      rw [chunkXor_cancel _ _ (by rw [hsv, hX])]
    | none =>
      have hred : reduceEqn known (v :: vs) rhs
          = ⟨(reduceEqn known vs rhs).rhs, v :: (reduceEqn known vs rhs).vars⟩ :=
        reduceEqn_not_found known v vs rhs hl
      have hrhs2 : rhs = chunkXor (chunkXor extra (sourceChunk data v)) (xorOf data vs) := by
        rw [hrhs, chunkXor_assoc]
      have hlen2 : (chunkXor extra (sourceChunk data v)).length = FEC_CHUNK_SIZE := by
        rw [length_chunkXor, hlen, hsv]
        simp
      obtain ⟨h1, h2⟩ := ih rhs (chunkXor extra (sourceChunk data v)) hvsD hlen2 hrhs2
      rw [hred]
      constructor
      · show (reduceEqn known vs rhs).rhs
          = chunkXor extra (xorOf data (v :: (reduceEqn known vs rhs).vars))
        rw [xorOf_cons, ← chunkXor_assoc]
        exact h1
      · intro w hw
        rcases List.mem_cons.mp hw with h' | h'
        · exact h' ▸ hvD
        · exact h2 w h'

theorem reduceEqn_holds (data : List ℕ) (known : List (ℕ × Chunk)) (e : FecEqn)
    (hK : KnownOK data known)
    (he : e.rhs = xorOf data e.vars)
    (hv : ∀ v ∈ e.vars, v < dataChunkCount data.length) :
    (reduceEqn known e.vars e.rhs).rhs
        = xorOf data (reduceEqn known e.vars e.rhs).vars
      ∧ ∀ v ∈ (reduceEqn known e.vars e.rhs).vars, v < dataChunkCount data.length := by
  have hX : (xorOf data e.vars).length = FEC_CHUNK_SIZE := length_xorOf data e.vars hv
  have h0 : e.rhs = chunkXor zeroChunk (xorOf data e.vars) := by
    unfold zeroChunk
    rw [chunkXor_zero_left _ _ hX]
    exact he
  obtain ⟨h1, h2⟩ := reduceEqn_sound data known hK e.vars e.rhs zeroChunk hv
    (by simp [zeroChunk]) h0
  refine ⟨?_, h2⟩
  rw [h1]
  unfold zeroChunk
  rw [chunkXor_zero_left _ _ (length_xorOf data _ h2)]

theorem peelPass_sound (data : List ℕ) :
    ∀ (eqs : List FecEqn) (known : List (ℕ × Chunk)),
    KnownOK data known → EqnsOK data eqs →
    KnownOK data (peelPass known eqs).1 ∧ EqnsOK data (peelPass known eqs).2 := by
  intro eqs
  induction eqs with
  | nil =>
    intro known hK hE
    exact ⟨hK, by intro e he; simp [peelPass] at he⟩
  | cons e rest ih =>
    intro known hK hE
    have heOK := hE e (List.mem_cons_self e rest)
    have hrest : EqnsOK data rest := fun e' he' => hE e' (List.mem_cons_of_mem e he')
    obtain ⟨h1, h2⟩ := reduceEqn_holds data known e hK heOK.1 heOK.2
    unfold peelPass
    cases hvars : (reduceEqn known e.vars e.rhs).vars with
    | nil =>
      simp only [hvars]
      exact ih known hK hrest
    | cons j tl =>
      cases tl with
      | nil =>
        simp only [hvars]
        have hjD : j < dataChunkCount data.length := by
          apply h2
          rw [hvars]
          exact List.mem_cons_self j []
        have hrhs : (reduceEqn known e.vars e.rhs).rhs = sourceChunk data j := by
          rw [h1, hvars, xorOf_single data j hjD]
        apply ih
        · intro pr hpr
          rcases List.mem_cons.mp hpr with h' | h'
          · rw [h']
            exact hrhs
          · exact hK pr h'
        · exact hrest
      | cons k tl2 =>
        simp only [hvars]
        obtain ⟨hA, hB⟩ := ih known hK hrest
        refine ⟨hA, ?_⟩
        intro e' he'
        rcases List.mem_cons.mp he' with h' | h'
        · subst h'
          exact ⟨by rw [h1], h2⟩
        · exact hB e' h'

theorem solveLoop_sound (data : List ℕ) :
    ∀ (fuel : ℕ) (known : List (ℕ × Chunk)) (eqs : List FecEqn),
    KnownOK data known → EqnsOK data eqs →
    KnownOK data (solveLoop fuel known eqs) := by
  intro fuel
  induction fuel with
  | zero => intro known eqs hK _; exact hK
  | succ f ih =>
    intro known eqs hK hE
    obtain ⟨h1, h2⟩ := peelPass_sound data eqs known hK hE
    exact ih _ _ h1 h2

theorem provideChunk_params (st : FECDecoder) (chunk : Chunk) (chunk_id : ℕ) :
    (ProvideChunk st chunk chunk_id).2.chunk_count = st.chunk_count
    ∧ (ProvideChunk st chunk chunk_id).2.obj_size = st.obj_size
    ∧ (ProvideChunk st chunk chunk_id).2.coefs = st.coefs
    ∧ (ProvideChunk st chunk chunk_id).2.decodeComplete = st.decodeComplete := by
  unfold ProvideChunk
  by_cases h1 : FEC_CHUNK_COUNT_MAX ≤ chunk_id
  · simp [h1]
  · by_cases h2 : st.chunk_count ≤ CM256_MAX_CHUNKS ∧ 256 ≤ chunk_id
    · simp [h1, h2]
    · by_cases h3 : chunk.length ≠ FEC_CHUNK_SIZE
      · simp [h1, h2, h3]
      · by_cases h4 : (CheckPresentAndMarkRecvd st.chunk_tracker chunk_id).1
        · simp [h1, h2, h3, h4]
        · simp [h1, h2, h3, h4]

theorem provideChunk_received (st : FECDecoder) (chunk : Chunk) (chunk_id : ℕ) :
    ∀ q ∈ (ProvideChunk st chunk chunk_id).2.received,
      q ∈ st.received ∨ q = (chunk_id, chunk) := by
  intro q hq
  unfold ProvideChunk at hq
  by_cases h1 : FEC_CHUNK_COUNT_MAX ≤ chunk_id
  · rw [if_pos h1] at hq
    exact Or.inl hq
  · rw [if_neg h1] at hq
    by_cases h2 : st.chunk_count ≤ CM256_MAX_CHUNKS ∧ 256 ≤ chunk_id
    · rw [if_pos h2] at hq
      exact Or.inl hq
    · rw [if_neg h2] at hq
      by_cases h3 : chunk.length ≠ FEC_CHUNK_SIZE
      · rw [if_pos h3] at hq
        exact Or.inl hq
      · rw [if_neg h3] at hq
        by_cases h4 : (CheckPresentAndMarkRecvd st.chunk_tracker chunk_id).1
        · rw [if_pos h4] at hq
          exact Or.inl hq
        · rw [if_neg h4] at hq
          rcases List.mem_cons.mp hq with h' | h'
          · exact Or.inr h'
          · exact Or.inl h'

theorem provideAll_params (inputs : List (Chunk × ℕ)) :
    ∀ (st : FECDecoder),
    (provideAll st inputs).chunk_count = st.chunk_count
    ∧ (provideAll st inputs).obj_size = st.obj_size
    ∧ (provideAll st inputs).coefs = st.coefs
    ∧ (provideAll st inputs).decodeComplete = st.decodeComplete := by
  induction inputs with
  | nil => intro st; exact ⟨rfl, rfl, rfl, rfl⟩
  | cons pr inputs ih =>
    intro st
    have h1 : provideAll st (pr :: inputs) = provideAll (ProvideChunk st pr.1 pr.2).2 inputs := rfl
    obtain ⟨a1, a2, a3, a4⟩ := ih (ProvideChunk st pr.1 pr.2).2
    obtain ⟨b1, b2, b3, b4⟩ := provideChunk_params st pr.1 pr.2
    rw [h1]
    exact ⟨a1.trans b1, a2.trans b2, a3.trans b3, a4.trans b4⟩

theorem provideAll_received (data : List ℕ) (coef : ℕ → ℕ → Bool)
    (inputs : List (Chunk × ℕ)) :
    ∀ (st : FECDecoder),
    (∀ pr ∈ inputs, pr.1 = EncodeChunk data coef pr.2) →
    (∀ q ∈ st.received, q.2 = EncodeChunk data coef q.1) →
    ∀ q ∈ (provideAll st inputs).received, q.2 = EncodeChunk data coef q.1 := by
  induction inputs with
  | nil => intro st _ hst; exact hst
  | cons pr inputs ih =>
    intro st hin hst
    have h1 : provideAll st (pr :: inputs) = provideAll (ProvideChunk st pr.1 pr.2).2 inputs := rfl
    rw [h1]
    apply ih
    · intro q hq
      exact hin q (List.mem_cons_of_mem pr hq)
    · intro q hq
      rcases provideChunk_received st pr.1 pr.2 q hq with h' | h'
      · exact hst q h'
      · rw [h']
        exact hin pr (List.mem_cons_self pr inputs)

theorem EncodeChunk_lt (data : List ℕ) (coef : ℕ → ℕ → Bool) (id : ℕ)
    (h : id < dataChunkCount data.length) :
    EncodeChunk data coef id = sourceChunk data id := by
  simp [EncodeChunk, h]

theorem EncodeChunk_ge (data : List ℕ) (coef : ℕ → ℕ → Bool) (id : ℕ)
    (h : ¬ id < dataChunkCount data.length) :
    EncodeChunk data coef id
      = xorOf data ((List.range (dataChunkCount data.length)).filter
          (fun j => coef id j)) := by
  simp [EncodeChunk, h]

theorem decoderSolve_sound (data : List ℕ) (coef : ℕ → ℕ → Bool) (st : FECDecoder)
    (hcc : st.chunk_count = dataChunkCount data.length)
    (hco : st.coefs = coef)
    (hrec : ∀ q ∈ st.received, q.2 = EncodeChunk data coef q.1) :
    KnownOK data (decoderSolve st) := by
  unfold decoderSolve
  apply solveLoop_sound data
  · intro pr hpr
    unfold initKnown at hpr
    rcases List.mem_filterMap.mp hpr with ⟨a, ha, heq⟩
    by_cases hlt : a.1 < st.chunk_count
    · rw [if_pos hlt, Option.some.injEq] at heq
      subst heq
      rw [hrec a ha, EncodeChunk_lt data coef a.1 (hcc ▸ hlt)]
    · rw [if_neg hlt] at heq
      exact absurd heq (by simp)
  · intro e he
    unfold initEqns at he
    rcases List.mem_filterMap.mp he with ⟨a, ha, heq⟩
    by_cases hlt : a.1 < st.chunk_count
    · rw [if_pos hlt] at heq
      exact absurd heq (by simp)
    · rw [if_neg hlt, Option.some.injEq] at heq
      subst heq
      constructor
      · show a.2 = xorOf data ((List.range st.chunk_count).filter (fun j => st.coefs a.1 j))
        rw [hrec a ha, EncodeChunk_ge data coef a.1 (by rw [← hcc]; exact hlt), hcc, hco]
      · intro v hv
        have hvr := (List.mem_filter.mp hv).1
        rw [← hcc]
        exact List.mem_range.mp hvr

theorem getDecodedData_eq (data : List ℕ) (st : FECDecoder)
    (hcc : st.chunk_count = dataChunkCount data.length)
    (hobj : st.obj_size = data.length)
    (hK : KnownOK data (decoderSolve st))
    (hsolved : decodeSolved st = true) :
    GetDecodedData st = data := by
  unfold GetDecodedData
  have hmap : (List.range st.chunk_count).map
        (fun j => (lookupKnown (decoderSolve st) j).getD zeroChunk)
      = (List.range st.chunk_count).map (fun j => sourceChunk data j) := by
    apply List.map_eq_map_iff.mpr
    intro j hj
    have hsome : (lookupKnown (decoderSolve st) j).isSome = true := by
      unfold decodeSolved at hsolved
      rw [List.all_eq_true] at hsolved
      exact hsolved j hj
    obtain ⟨v, hv⟩ := Option.isSome_iff_exists.mp hsome
    rw [hv]
    show v = sourceChunk data j
    exact lookupKnown_correct data _ j v hK hv
  rw [hmap, hcc, hobj]
  have hjoin := join_sourceChunks data
  have heta : (List.range (dataChunkCount data.length)).map (fun j => sourceChunk data j)
      = (List.range (dataChunkCount data.length)).map (sourceChunk data) := rfl
  rw [heta, hjoin, take_padData]

theorem decodeReady_fst_of_not_complete (st : FECDecoder)
    (h : st.decodeComplete = false) :
    (DecodeReady st).1 = decodeSolved st := by
  unfold DecodeReady
  rw [h]
  by_cases hs : decodeSolved st
  · rw [if_neg (by simp), if_pos hs, hs]
  · rw [if_neg (by simp), if_neg hs]
    rw [Bool.not_eq_true] at hs
    rw [hs]

/-- C1: round-trip.  For every source object (0 < L ≤ MAX_OBJECT_SIZE) and
every subset of the chunks emitted by an encoder over the same object, if
the subset is sufficient for decoding (feeding it to a decoder constructed
with object_size = L via ProvideChunk makes DecodeReady report true), then
DecodeReady() becomes true and GetDecodedData() returns exactly the
original L source bytes. -/
theorem fec_c1_round_trip (data : List ℕ) (coef : ℕ → ℕ → Bool)
    (inputs : List (Chunk × ℕ))
    (hL : 0 < data.length) (hmax : data.length ≤ MAX_OBJECT_SIZE)
    (hemit : ∀ pr ∈ inputs, pr.1 = EncodeChunk data coef pr.2)
    (hsuff : Sufficient data.length coef inputs) :
    (DecodeReady (provideAll (FECDecoder.init data.length coef) inputs)).1 = true
    ∧ GetDecodedData (provideAll (FECDecoder.init data.length coef) inputs)
        = data := by
  refine ⟨hsuff, ?_⟩
  obtain ⟨p1, p2, p3, p4⟩ := provideAll_params inputs (FECDecoder.init data.length coef)
  have hcc : (provideAll (FECDecoder.init data.length coef) inputs).chunk_count
      = dataChunkCount data.length := p1
  have hobj : (provideAll (FECDecoder.init data.length coef) inputs).obj_size
      = data.length := p2
  have hco : (provideAll (FECDecoder.init data.length coef) inputs).coefs = coef := p3
  have hdc : (provideAll (FECDecoder.init data.length coef) inputs).decodeComplete
      = false := p4
  have hrec : ∀ q ∈ (provideAll (FECDecoder.init data.length coef) inputs).received,
      q.2 = EncodeChunk data coef q.1 :=
    provideAll_received data coef inputs _ hemit
      (by intro q hq; exact absurd hq (List.not_mem_nil q))
  have hK := decoderSolve_sound data coef _ hcc hco hrec
  have hsolved : decodeSolved (provideAll (FECDecoder.init data.length coef) inputs)
      = true := by
    rw [← decodeReady_fst_of_not_complete _ hdc]
    exact hsuff
  exact getDecodedData_eq data _ hcc hobj hK hsolved

theorem checkMark_dup_state (t : BlockChunkRecvdTracker) (id : ℕ)
    (h : (CheckPresentAndMarkRecvd t id).1 = true) :
    (CheckPresentAndMarkRecvd t id).2 = t := by
  by_cases h1 : id < t.data_chunk_recvd_flags.length
  · rw [checkMark_eq_flags t id h1] at h ⊢
    by_cases h2 : flagAt t.data_chunk_recvd_flags id
    · rw [if_pos h2]
    · rw [if_neg h2] at h
      simp at h
  · rw [checkMark_eq_hash t id h1] at h ⊢
    by_cases h3 : id ∈ t.fec_chunks_recvd
    · rw [if_pos h3]
    · rw [if_neg h3] at h
      simp at h

theorem checkMark_marked (t : BlockChunkRecvdTracker) (id : ℕ) :
    CheckPresentAndMarkRecvd (CheckPresentAndMarkRecvd t id).2 id
      = (true, (CheckPresentAndMarkRecvd t id).2) := by
  have ha : (CheckPresentAndMarkRecvd (CheckPresentAndMarkRecvd t id).2 id).1 = true := by
    rw [checkMark_fst, checkPresent_after_mark]
    simp
  have hb := checkMark_dup_state _ id ha
  calc CheckPresentAndMarkRecvd (CheckPresentAndMarkRecvd t id).2 id
      = ((CheckPresentAndMarkRecvd (CheckPresentAndMarkRecvd t id).2 id).1,
         (CheckPresentAndMarkRecvd (CheckPresentAndMarkRecvd t id).2 id).2) := rfl
    _ = (true, (CheckPresentAndMarkRecvd t id).2) := by rw [ha, hb]

theorem provideChunk_tracker (st : FECDecoder) (chunk : Chunk) (chunk_id : ℕ)
    (hv1 : ¬ FEC_CHUNK_COUNT_MAX ≤ chunk_id)
    (hv2 : ¬ (st.chunk_count ≤ CM256_MAX_CHUNKS ∧ 256 ≤ chunk_id))
    (hv3 : ¬ (chunk.length ≠ FEC_CHUNK_SIZE)) :
    (ProvideChunk st chunk chunk_id).2.chunk_tracker
      = (CheckPresentAndMarkRecvd st.chunk_tracker chunk_id).2 := by
  unfold ProvideChunk
  rw [if_neg hv1, if_neg hv2, if_neg hv3]
  by_cases h4 : (CheckPresentAndMarkRecvd st.chunk_tracker chunk_id).1
  · rw [if_pos h4]
  · rw [if_neg h4]

theorem provideChunk_valid_fst (st : FECDecoder) (chunk : Chunk) (chunk_id : ℕ)
    (hv1 : ¬ FEC_CHUNK_COUNT_MAX ≤ chunk_id)
    (hv2 : ¬ (st.chunk_count ≤ CM256_MAX_CHUNKS ∧ 256 ≤ chunk_id))
    (hv3 : ¬ (chunk.length ≠ FEC_CHUNK_SIZE)) :
    (ProvideChunk st chunk chunk_id).1 = true := by
  unfold ProvideChunk
  rw [if_neg hv1, if_neg hv2, if_neg hv3]
  by_cases h4 : (CheckPresentAndMarkRecvd st.chunk_tracker chunk_id).1
  · rw [if_pos h4]
  · rw [if_neg h4]

/-- C3: dedup idempotence of ProvideChunk.  For every decoder state and
every valid (bytes, chunk_id) input, the first call accepts (returns true)
and calling ProvideChunk again with identical arguments returns true and
leaves the decoder state (chunks_recvd included) exactly as after the
first call. -/
theorem fec_c3_dedup_idempotent (st : FECDecoder) (chunk : Chunk) (chunk_id : ℕ)
    (h1 : chunk_id < FEC_CHUNK_COUNT_MAX)
    (h2 : st.chunk_count ≤ CM256_MAX_CHUNKS → chunk_id < 256)
    (h3 : chunk.length = FEC_CHUNK_SIZE) :
    (ProvideChunk st chunk chunk_id).1 = true
    ∧ ProvideChunk (ProvideChunk st chunk chunk_id).2 chunk chunk_id
        = (true, (ProvideChunk st chunk chunk_id).2) := by
  have hv1 : ¬ FEC_CHUNK_COUNT_MAX ≤ chunk_id := Nat.not_le.mpr h1
  have hv3 : ¬ (chunk.length ≠ FEC_CHUNK_SIZE) := fun hne => hne h3
  have hv2 : ¬ (st.chunk_count ≤ CM256_MAX_CHUNKS ∧ 256 ≤ chunk_id) := by
    rintro ⟨ha, hb⟩
    exact Nat.not_le.mpr (h2 ha) hb
  refine ⟨provideChunk_valid_fst st chunk chunk_id hv1 hv2 hv3, ?_⟩
  obtain ⟨p1, _, _, _⟩ := provideChunk_params st chunk chunk_id
  have hv2' : ¬ ((ProvideChunk st chunk chunk_id).2.chunk_count ≤ CM256_MAX_CHUNKS
      ∧ 256 ≤ chunk_id) := by
    rw [p1]
    exact hv2
  have hmark2 : CheckPresentAndMarkRecvd
        (ProvideChunk st chunk chunk_id).2.chunk_tracker chunk_id
      = (true, (ProvideChunk st chunk chunk_id).2.chunk_tracker) := by
    rw [provideChunk_tracker st chunk chunk_id hv1 hv2 hv3]
    exact checkMark_marked st.chunk_tracker chunk_id
  conv_lhs => rw [ProvideChunk]
  rw [if_neg hv1, if_neg hv2', if_neg hv3, hmark2]
  rfl

/-- C4: ProvideChunk error semantics.  ProvideChunk returns false exactly on
hard-invalid input (chunk_id outside the id space, chunk_id at least 256 in
small mode, or wrong payload length); on invalid input the decoder state is
unchanged, and on every valid input it returns true. -/
theorem fec_c4_provide_chunk_errors (st : FECDecoder) (chunk : Chunk) (chunk_id : ℕ) :
    ((ProvideChunk st chunk chunk_id).1 = false
      ↔ (FEC_CHUNK_COUNT_MAX ≤ chunk_id
          ∨ (st.chunk_count ≤ CM256_MAX_CHUNKS ∧ 256 ≤ chunk_id)
          ∨ chunk.length ≠ FEC_CHUNK_SIZE))
    ∧ ((FEC_CHUNK_COUNT_MAX ≤ chunk_id
          ∨ (st.chunk_count ≤ CM256_MAX_CHUNKS ∧ 256 ≤ chunk_id)
          ∨ chunk.length ≠ FEC_CHUNK_SIZE)
        → (ProvideChunk st chunk chunk_id).2 = st)
    ∧ (¬ (FEC_CHUNK_COUNT_MAX ≤ chunk_id
          ∨ (st.chunk_count ≤ CM256_MAX_CHUNKS ∧ 256 ≤ chunk_id)
          ∨ chunk.length ≠ FEC_CHUNK_SIZE)
        → (ProvideChunk st chunk chunk_id).1 = true) := by
  by_cases h1 : FEC_CHUNK_COUNT_MAX ≤ chunk_id
  · have he : ProvideChunk st chunk chunk_id = (false, st) := by
      unfold ProvideChunk
      rw [if_pos h1]
    rw [he]
    simp [h1]
  · by_cases h2 : st.chunk_count ≤ CM256_MAX_CHUNKS ∧ 256 ≤ chunk_id
    · have he : ProvideChunk st chunk chunk_id = (false, st) := by
        unfold ProvideChunk
        rw [if_neg h1, if_pos h2]
      rw [he]
      simp [h1, h2]
    · by_cases h3 : chunk.length ≠ FEC_CHUNK_SIZE
      · have he : ProvideChunk st chunk chunk_id = (false, st) := by
          unfold ProvideChunk
          rw [if_neg h1, if_neg h2, if_pos h3]
        rw [he]
        simp [h1, h2, h3]
      · have he := provideChunk_valid_fst st chunk chunk_id h1 h2 h3
        refine ⟨by rw [he]; simp [h1, h2, h3], ?_, fun _ => he⟩
        intro hinv
        rcases hinv with h' | h' | h'
        · exact absurd h' h1
        · exact absurd h' h2
        · exact absurd h' h3

theorem decodeReady_of_complete (st : FECDecoder) (h : st.decodeComplete = true) :
    DecodeReady st = (true, st) := by
  unfold DecodeReady
  rw [if_pos h]

theorem decodeReady_false (st : FECDecoder) (h : (DecodeReady st).1 = false) :
    DecodeReady st = (false, st) := by
  unfold DecodeReady at h ⊢
  by_cases h1 : st.decodeComplete
  · rw [if_pos h1] at h
    simp at h
  · rw [if_neg h1] at h ⊢
    by_cases h2 : decodeSolved st
    · rw [if_pos h2] at h
      simp at h
    · rw [if_neg h2]

theorem decodeReady_complete_after (st : FECDecoder) (h : (DecodeReady st).1 = true) :
    (DecodeReady st).2.decodeComplete = true := by
  unfold DecodeReady at h ⊢
  by_cases h1 : st.decodeComplete
  · rw [if_pos h1]
    exact h1
  · rw [if_neg h1] at h ⊢
    by_cases h2 : decodeSolved st
    · rw [if_pos h2]
    · rw [if_neg h2] at h
      simp at h

theorem decodeReady_state (st : FECDecoder) :
    (DecodeReady st).2.chunks_recvd = st.chunks_recvd
    ∧ (DecodeReady st).2.chunk_count = st.chunk_count
    ∧ (DecodeReady st).2.chunk_tracker = st.chunk_tracker := by
  unfold DecodeReady
  by_cases h1 : st.decodeComplete
  · rw [if_pos h1]
    exact ⟨rfl, rfl, rfl⟩
  · rw [if_neg h1]
    by_cases h2 : decodeSolved st
    · rw [if_pos h2]
      exact ⟨rfl, rfl, rfl⟩
    · rw [if_neg h2]
      exact ⟨rfl, rfl, rfl⟩

theorem decOpStep_preserves_complete (st : FECDecoder) (op : DecOp)
    (h : st.decodeComplete = true) : (decOpStep st op).decodeComplete = true := by
  cases op with
  | provide chunk id => exact ((provideChunk_params st chunk id).2.2.2).trans h
  | ready =>
    show (DecodeReady st).2.decodeComplete = true
    rw [decodeReady_of_complete st h]
    exact h
  | hasChunk id => exact h

theorem runDecOps_preserves_complete (ops : List DecOp) :
    ∀ (st : FECDecoder), st.decodeComplete = true →
    (runDecOps st ops).decodeComplete = true := by
  induction ops with
  | nil => intro st h; exact h
  | cons op ops ih =>
    intro st h
    exact ih (decOpStep st op) (decOpStep_preserves_complete st op h)

/-- C5: DecodeReady monotonicity and purity.  A DecodeReady call leaves every
publicly observable piece of decoder state unchanged (GetChunksRcvd,
GetChunkCount, HasChunk and the result of a repeated DecodeReady), and once
DecodeReady has returned true (the result is memoized in `decodeComplete`),
every later DecodeReady call, across any sequence of further public calls,
also returns true. -/
theorem fec_c5_decode_ready_monotone (st : FECDecoder) (ops : List DecOp) :
    (GetChunksRcvd (DecodeReady st).2 = GetChunksRcvd st
      ∧ GetChunkCount (DecodeReady st).2 = GetChunkCount st
      ∧ (∀ id, HasChunk (DecodeReady st).2 id = HasChunk st id)
      ∧ (DecodeReady (DecodeReady st).2).1 = (DecodeReady st).1)
    ∧ ((DecodeReady st).1 = true →
        (DecodeReady (runDecOps (DecodeReady st).2 ops)).1 = true) := by
  obtain ⟨s1, s2, s3⟩ := decodeReady_state st
  constructor
  · refine ⟨s1, s2, fun id => by unfold HasChunk; rw [s3], ?_⟩
    by_cases h1 : (DecodeReady st).1 = true
    · have hc := decodeReady_complete_after st h1
      rw [decodeReady_of_complete _ hc, h1]
    · rw [Bool.not_eq_true] at h1
      have hf := decodeReady_false st h1
      rw [hf]
      exact h1
  · intro h1
    have hc := decodeReady_complete_after st h1
    have hrun := runDecOps_preserves_complete ops _ hc
    rw [decodeReady_of_complete _ hrun]

theorem nthMarkResult_eq (D : ℕ) (ids : List ℕ) (n : ℕ) :
    nthMarkResult D ids n = decide (ids.getD n 0 ∈ ids.take n) := by
  unfold nthMarkResult runMarks
  rw [checkMark_fst, checkPresent_run_init, markedIds_map_mark]

/-- C2: tracker correctness.  In any sequence of CheckPresentAndMarkRecvd
calls on a tracker built with D ≥ 1 data chunks, a call returns true exactly
when an earlier call with the same id returned false: no false negatives and
no false positives. -/
theorem fec_c2_tracker_correct (D : ℕ) (ids : List ℕ) (n : ℕ)
    (hD : 1 ≤ D) (hn : n < ids.length) :
    nthMarkResult D ids n = true
      ↔ ∃ m, m < n ∧ ids.getD m 0 = ids.getD n 0 ∧ nthMarkResult D ids m = false := by
  constructor
  · intro h
    rw [nthMarkResult_eq D ids n] at h
    have hmem : ids.getD n 0 ∈ ids.take n := of_decide_eq_true h
    obtain ⟨m, hm, hget, hnot⟩ := exists_first_occ (ids.take n) (ids.getD n 0) hmem
    have hlen : (ids.take n).length = n := by
      rw [List.length_take]
      omega
    rw [hlen] at hm
    have hg2 : ids.getD m 0 = ids.getD n 0 := by
      rw [← getD_take ids n m hm]
      exact hget
    refine ⟨m, hm, hg2, ?_⟩
    rw [nthMarkResult_eq D ids m, hg2]
    have htt : (ids.take n).take m = ids.take m := by
      rw [List.take_take]
      congr 1
      omega
    rw [htt] at hnot
    exact decide_eq_false hnot
  · rintro ⟨m, hmn, heq, _⟩
    rw [nthMarkResult_eq D ids n]
    apply decide_eq_true
    rw [← heq, ← getD_take ids n m hmn]
    apply getD_mem
    rw [List.length_take]
    omega

/-- C2 witness: D = 1, ids = [5, 5]; the second call reports the id present
because the first call (same id) reported it absent. -/
theorem fec_c2_tracker_correct_witness :
    (1 ≤ 1 ∧ 1 < ([5, 5] : List ℕ).length)
    ∧ (nthMarkResult 1 [5, 5] 1 = true
        ↔ ∃ m, m < 1 ∧ ([5, 5] : List ℕ).getD m 0 = ([5, 5] : List ℕ).getD 1 0
            ∧ nthMarkResult 1 [5, 5] m = false) :=
  ⟨⟨by decide, by decide⟩, fec_c2_tracker_correct 1 [5, 5] 1 (by decide) (by decide)⟩

theorem checkMark_keeps_null_out (t : BlockChunkRecvdTracker) (id : ℕ)
    (hD : 1 ≤ t.data_chunk_recvd_flags.length) (h0 : 0 ∉ t.fec_chunks_recvd) :
    0 ∉ (CheckPresentAndMarkRecvd t id).2.fec_chunks_recvd := by
  by_cases h1 : id < t.data_chunk_recvd_flags.length
  · rw [checkMark_eq_flags t id h1]
    by_cases h2 : flagAt t.data_chunk_recvd_flags id
    · rw [if_pos h2]
      exact h0
    · rw [if_neg h2]
      exact h0
  · rw [checkMark_eq_hash t id h1]
    by_cases h3 : id ∈ t.fec_chunks_recvd
    · rw [if_pos h3]
      exact h0
    · rw [if_neg h3]
      intro hmem
      rcases List.mem_cons.mp hmem with h' | h'
      · rw [← h'] at h1
        omega
      · exact h0 h'

theorem runTrackerOps_null_inv (ops : List TrackerOp) :
    ∀ (t : BlockChunkRecvdTracker),
    1 ≤ t.data_chunk_recvd_flags.length → 0 ∉ t.fec_chunks_recvd →
    1 ≤ (runTrackerOps t ops).data_chunk_recvd_flags.length
    ∧ 0 ∉ (runTrackerOps t ops).fec_chunks_recvd := by
  induction ops with
  | nil => intro t hD h0; exact ⟨hD, h0⟩
  | cons op ops ih =>
    intro t hD h0
    cases op with
    | mark id =>
      have h1 : runTrackerOps t (TrackerOp.mark id :: ops)
          = runTrackerOps (CheckPresentAndMarkRecvd t id).2 ops := rfl
      rw [h1]
      apply ih
      · rw [checkMark_flags_length]
        exact hD
      · exact checkMark_keeps_null_out t id hD h0
    | query id =>
      have h1 : runTrackerOps t (TrackerOp.query id :: ops) = runTrackerOps t ops := rfl
      rw [h1]
      exact ih t hD h0

/-- C6: id-0 sentinel invariant.  On a tracker built with D ≥ 1 data chunks,
no sequence of CheckPresentAndMarkRecvd / CheckPresent calls ever puts chunk
id 0 into the redundancy hash set (ids below D are handled exclusively by
the bit-vector, so the null-slot sentinel 0 never collides with a stored
id). -/
theorem fec_c6_null_id_invariant (D : ℕ) (ops : List TrackerOp) (hD : 1 ≤ D) :
    0 ∉ (runTrackerOps (trackerInit D) ops).fec_chunks_recvd := by
  refine (runTrackerOps_null_inv ops (trackerInit D) ?_ ?_).2
  · show 1 ≤ (List.replicate D false).length
    rw [List.length_replicate]
    exact hD
  · show 0 ∉ ([] : List ℕ)
    exact List.not_mem_nil 0

/-- C6 witness: D = 1 with a mix of marking and query calls, among them the
systematic id 0 and a redundancy id. -/
theorem fec_c6_null_id_invariant_witness :
    1 ≤ 1
    ∧ 0 ∉ (runTrackerOps (trackerInit 1)
        [TrackerOp.mark 0, TrackerOp.mark 7, TrackerOp.query 7]).fec_chunks_recvd :=
  ⟨by decide,
    fec_c6_null_id_invariant 1 [TrackerOp.mark 0, TrackerOp.mark 7, TrackerOp.query 7]
      (by decide)⟩

/-- C10: CheckPresent is a pure query.  A CheckPresent call leaves the
tracker exactly as it was, and it returns true exactly for the ids some
earlier CheckPresentAndMarkRecvd call has marked. -/
theorem fec_c10_check_present_pure (D : ℕ) (ops : List TrackerOp) (id : ℕ) :
    (trackerStep (runTrackerOps (trackerInit D) ops) (TrackerOp.query id)).2
      = runTrackerOps (trackerInit D) ops
    ∧ (CheckPresent (runTrackerOps (trackerInit D) ops) id = true
        ↔ id ∈ markedIds ops) := by
  refine ⟨rfl, ?_⟩
  rw [checkPresent_run_init]
  exact decide_eq_true_iff

/-- C7: BuildChunk id selection and slot protection.  With overwrite unset,
a filled slot (ids[i] ≠ 0) is returned as false and left untouched;
otherwise the chosen id fills chunks[i] with its encoding and lands in
ids[i], and the choice takes unused systematic ids in [0, D) first and
redundancy ids in [D, CHUNK_COUNT_MAX) once they are exhausted. -/
theorem fec_c7_build_chunk (coef : ℕ → ℕ → Bool) (e : FECEncoder) (i : ℕ)
    (overwrite : Bool) (hi : i < e.ids.length)
    (hD : encDataChunks e < FEC_CHUNK_COUNT_MAX) :
    (e.ids.getD i 0 ≠ 0 → overwrite = false → BuildChunk coef e i overwrite = (false, e))
    ∧ (e.ids.getD i 0 = 0 ∨ overwrite = true →
        BuildChunk coef e i overwrite
          = (true, { e with
              chunks := e.chunks.set i (EncodeChunk e.data coef (chooseId e))
              ids := e.ids.set i (chooseId e)
              rand := e.rand.tail }))
    ∧ (unusedSystematic e ≠ [] → chooseId e < encDataChunks e)
    ∧ (unusedSystematic e = [] →
        encDataChunks e ≤ chooseId e ∧ chooseId e < FEC_CHUNK_COUNT_MAX) := by
  refine ⟨?_, ?_, ?_, ?_⟩
  · intro hne hov
    unfold BuildChunk
    rw [if_pos ⟨hne, hov⟩]
  · intro h
    unfold BuildChunk
    rw [if_neg ?_]
    rintro ⟨ha, hb⟩
    rcases h with h' | h'
    · exact ha h'
    · rw [h'] at hb
      exact absurd hb (by simp)
  · intro hne
    cases hu : unusedSystematic e with
    | nil => exact absurd hu hne
    | cons j tl =>
      have hj : j ∈ unusedSystematic e := by
        rw [hu]
        exact List.mem_cons_self j tl
      have hj2 := (List.mem_filter.mp hj).1
      have hc : chooseId e = j := by
        unfold chooseId
        rw [hu]
      rw [hc]
      exact List.mem_range.mp hj2
  · intro hu
    have hc : chooseId e
        = encDataChunks e + e.rand.headD 0 % (FEC_CHUNK_COUNT_MAX - encDataChunks e) := by
      unfold chooseId
      rw [hu]
    have hmod : e.rand.headD 0 % (FEC_CHUNK_COUNT_MAX - encDataChunks e)
        < FEC_CHUNK_COUNT_MAX - encDataChunks e :=
      Nat.mod_lt _ (by omega)
    rw [hc]
    omega

/-- C7 witness: a filled slot (ids[0] = 5) with overwrite unset is rejected
and left untouched. -/
theorem fec_c7_build_chunk_witness :
    (0 < (FECEncoder.mk [1, 2, 3] [[]] [5] []).ids.length
      ∧ encDataChunks (FECEncoder.mk [1, 2, 3] [[]] [5] []) < FEC_CHUNK_COUNT_MAX
      ∧ (FECEncoder.mk [1, 2, 3] [[]] [5] []).ids.getD 0 0 ≠ 0)
    ∧ BuildChunk (fun _ _ => true) (FECEncoder.mk [1, 2, 3] [[]] [5] []) 0 false
        = (false, FECEncoder.mk [1, 2, 3] [[]] [5] []) :=
  ⟨⟨by decide, by decide, by decide⟩,
    (fec_c7_build_chunk (fun _ _ => true) (FECEncoder.mk [1, 2, 3] [[]] [5] []) 0 false
      (by decide) (by decide)).1 (by decide) rfl⟩

/-- C8: ring buffer read-abort.  With a committed element present,
GetNextRead followed by AbortRead leaves the read pointer and the buffer
contents unchanged (the buffer stays non-empty) and the next GetNextRead
returns the very element the aborted read saw. -/
theorem fec_c8_ring_read_abort {T : Type} (b : RingBuffer T) (v : T)
    (h : (GetNextRead b).1 = some v) :
    (AbortRead (GetNextRead b).2).elems = b.elems
    ∧ (AbortRead (GetNextRead b).2).elems ≠ []
    ∧ (GetNextRead (AbortRead (GetNextRead b).2)).1 = some v := by
  have he : b.elems.head? = some v := h
  refine ⟨rfl, ?_, ?_⟩
  · intro hnil
    have : b.elems = [] := hnil
    rw [this] at he
    simp at he
  · exact he

/-- C8 witness: a one-element buffer; the aborted read and the next read
both see the element 42. -/
theorem fec_c8_ring_read_abort_witness :
    (GetNextRead (RingBuffer.mk [42] false ⟨0, 0⟩ : RingBuffer ℕ)).1 = some 42
    ∧ (GetNextRead (AbortRead
        (GetNextRead (RingBuffer.mk [42] false ⟨0, 0⟩ : RingBuffer ℕ)).2)).1 = some 42 :=
  ⟨by decide, (fec_c8_ring_read_abort (RingBuffer.mk [42] false ⟨0, 0⟩) 42 (by decide)).2.2⟩

/-- C9: ring buffer write-abort atomicity.  An AbortWrite received while
WriteElement is blocked on a full buffer makes that WriteElement return
false having written nothing: the buffer (contents, occupancy and write
position) is exactly the one from before the call. -/
theorem fec_c9_ring_write_abort {T : Type} (b : RingBuffer T) (x : T)
    (evs : List WrEvent) (h : IsFull b = true) :
    WriteElement x b (WrEvent.abortWr :: evs) = some (false, b) := by
  unfold WriteElement
  have hfull : BUFF_DEPTH ≤ b.elems.length := of_decide_eq_true h
  rw [if_neg (by omega)]

/-- C9 witness: a full buffer of 64 elements; the aborted blocked write
returns false and the buffer is unchanged. -/
theorem fec_c9_ring_write_abort_witness :
    IsFull (RingBuffer.mk (List.replicate 64 0) false ⟨0, 0⟩ : RingBuffer ℕ) = true
    ∧ WriteElement 9 (RingBuffer.mk (List.replicate 64 0) false ⟨0, 0⟩ : RingBuffer ℕ)
        [WrEvent.abortWr]
      = some (false, RingBuffer.mk (List.replicate 64 0) false ⟨0, 0⟩) :=
  ⟨by decide,
    fec_c9_ring_write_abort (RingBuffer.mk (List.replicate 64 0) false ⟨0, 0⟩) 9 []
      (by decide)⟩

set_option maxRecDepth 40000 in
/-- C1 witness: feeding the one systematic chunk of the two-byte object to a
fresh decoder is sufficient, and the decoded bytes are the original ones. -/
theorem fec_c1_round_trip_witness :
    (0 < dataW.length ∧ dataW.length ≤ MAX_OBJECT_SIZE
      ∧ (∀ pr ∈ inputsW, pr.1 = EncodeChunk dataW coefW pr.2)
      ∧ Sufficient dataW.length coefW inputsW)
    ∧ GetDecodedData (provideAll (FECDecoder.init dataW.length coefW) inputsW)
        = dataW :=
  ⟨⟨by decide, by decide,
    by
      intro pr hpr
      simp only [inputsW, List.mem_singleton] at hpr
      subst hpr
      rfl,
    by unfold Sufficient; decide⟩,
    (fec_c1_round_trip dataW coefW inputsW (by decide) (by decide)
      (by
        intro pr hpr
        simp only [inputsW, List.mem_singleton] at hpr
        subst hpr
        rfl)
      (by unfold Sufficient; decide)).2⟩

set_option maxRecDepth 40000 in
/-- C3 witness: providing the same all-zero chunk with id 0 twice to a fresh
three-byte decoder; the duplicate call is an accepted no-op. -/
theorem fec_c3_dedup_idempotent_witness :
    ((0 : ℕ) < FEC_CHUNK_COUNT_MAX
      ∧ (List.replicate 1152 0 : Chunk).length = FEC_CHUNK_SIZE)
    ∧ ProvideChunk
        (ProvideChunk (FECDecoder.init 3 coefW) (List.replicate 1152 0) 0).2
        (List.replicate 1152 0) 0
      = (true, (ProvideChunk (FECDecoder.init 3 coefW) (List.replicate 1152 0) 0).2) :=
  ⟨⟨by decide, by decide⟩,
    (fec_c3_dedup_idempotent (FECDecoder.init 3 coefW) (List.replicate 1152 0) 0
      (by decide) (fun _ => by decide) (by decide)).2⟩

/-- C4 witness: the id `2^24` is outside the id space, so ProvideChunk
rejects it and leaves the fresh decoder unchanged. -/
theorem fec_c4_provide_chunk_errors_witness :
    (ProvideChunk (FECDecoder.init 3 coefW) [] (2 ^ 24)).1 = false
    ∧ (ProvideChunk (FECDecoder.init 3 coefW) [] (2 ^ 24)).2
        = FECDecoder.init 3 coefW :=
  ⟨(fec_c4_provide_chunk_errors (FECDecoder.init 3 coefW) [] (2 ^ 24)).1.mpr
      (Or.inl (by decide)),
    (fec_c4_provide_chunk_errors (FECDecoder.init 3 coefW) [] (2 ^ 24)).2.1
      (Or.inl (by decide))⟩

/-- C5 witness: a zero-byte object is immediately decodable; DecodeReady
stays true across a later DecodeReady call. -/
theorem fec_c5_decode_ready_monotone_witness :
    (DecodeReady (FECDecoder.init 0 coefW)).1 = true
    ∧ (DecodeReady (runDecOps (DecodeReady (FECDecoder.init 0 coefW)).2
        [DecOp.ready])).1 = true :=
  ⟨by decide,
    (fec_c5_decode_ready_monotone (FECDecoder.init 0 coefW) [DecOp.ready]).2 (by decide)⟩
